import Mathlib

/- Verification development for the discrete_resolver repository
   (`src/main.py`).  Python strings are modelled as `List Char`, Python
   `str.replace` as a left-to-right non-overlapping scan, the mixed-type
   evaluator stacks as lists of Python values, and raised exceptions as an
   explicit error result. -/

/-- Occurrence relation: `Pref q s` holds when `q` is an initial segment of `s`. -/
def Pref (q s : List Char) : Prop := ∃ y, s = q ++ y

/-- Occurrence relation: `Suff q s` holds when `q` is a final segment of `s`. -/
def Suff (q s : List Char) : Prop := ∃ x, s = x ++ q

/-- Occurrence relation: `SubSeg q s` holds when `q` occurs contiguously inside `s`
(Python's substring containment, as used implicitly by `str.replace`). -/
def SubSeg (q s : List Char) : Prop := ∃ x y, s = x ++ q ++ y

/-- Boolean test used by the `str.replace` model: `leadsWith p s` is `true`
exactly when the pattern `p` is an initial segment of `s`. -/
def leadsWith : List Char → List Char → Bool
  | [], _ => true
  | _ :: _, [] => false
  | c :: cs, d :: ds => c == d && leadsWith cs ds

/-- Fuel-indexed core of Python `str.replace`: scan left to right, replace each
non-overlapping occurrence of the pattern `p` by `r` and continue scanning
after the inserted replacement.  The fuel only needs to dominate the length of
the scanned string. -/
def pyReplaceF (p r : List Char) : Nat → List Char → List Char
  | _, [] => []
  | 0, s => s
  | n + 1, c :: cs =>
    if p ≠ [] ∧ leadsWith p (c :: cs) = true then
      r ++ pyReplaceF p r n (List.drop (p.length - 1) cs)
    else
      c :: pyReplaceF p r n cs

/-- Python `s.replace(p, r)` for a non-empty pattern `p`. -/
def pyReplace (p r s : List Char) : List Char := pyReplaceF p r s.length s

theorem pyReplaceF_nil (p r : List Char) (n : Nat) : pyReplaceF p r n [] = [] := by
  cases n <;> rfl

theorem pyReplaceF_cons_pos (p r : List Char) (n : Nat) (c : Char) (cs : List Char)
    (h : p ≠ [] ∧ leadsWith p (c :: cs) = true) :
    pyReplaceF p r (n + 1) (c :: cs) = r ++ pyReplaceF p r n (List.drop (p.length - 1) cs) := by
  rw [pyReplaceF]
  simp only [if_pos h]

theorem pyReplaceF_cons_neg (p r : List Char) (n : Nat) (c : Char) (cs : List Char)
    (h : ¬ (p ≠ [] ∧ leadsWith p (c :: cs) = true)) :
    pyReplaceF p r (n + 1) (c :: cs) = c :: pyReplaceF p r n cs := by
  rw [pyReplaceF]
  simp only [if_neg h]

theorem leadsWith_iff (p : List Char) : ∀ s, leadsWith p s = true ↔ Pref p s := by
  induction p with
  | nil =>
    intro s
    simp [leadsWith, Pref]
  | cons c cs ih =>
    intro s
    cases s with
    | nil =>
      simp [leadsWith, Pref]
    | cons d ds =>
      rw [leadsWith]
      constructor
      · intro h
        have hc : c = d := by
          have := (Bool.and_eq_true _ _).mp h
          exact beq_iff_eq.mp this.1
        have ht : leadsWith cs ds = true := ((Bool.and_eq_true _ _).mp h).2
        obtain ⟨y, hy⟩ := (ih ds).mp ht
        exact ⟨y, by simp [hc, hy]⟩
      · intro ⟨y, hy⟩
        have h1 : d = c ∧ ds = cs ++ y := by
          constructor
          · exact (List.cons.injEq _ _ _ _ ▸ hy).1
          · exact (List.cons.injEq _ _ _ _ ▸ hy).2
        refine (Bool.and_eq_true _ _).mpr ⟨beq_iff_eq.mpr h1.1.symm, ?_⟩
        exact (ih ds).mpr ⟨y, h1.2⟩

theorem pref_toSubSeg {q s : List Char} (h : Pref q s) : SubSeg q s := by
  obtain ⟨y, hy⟩ := h
  exact ⟨[], y, by simp [hy]⟩

theorem suff_toSubSeg {q s : List Char} (h : Suff q s) : SubSeg q s := by
  obtain ⟨x, hx⟩ := h
  exact ⟨x, [], by simp [hx]⟩

theorem subseg_nil_left (s : List Char) : SubSeg [] s := ⟨[], s, rfl⟩

theorem subseg_nil_right {q : List Char} (h : SubSeg q []) : q = [] := by
  obtain ⟨x, y, hy⟩ := h
  have := List.append_eq_nil.mp hy.symm
  have := List.append_eq_nil.mp this.1
  exact this.2

theorem subseg_cons_lift {q s : List Char} (c : Char) (h : SubSeg q s) :
    SubSeg q (c :: s) := by
  obtain ⟨x, y, hy⟩ := h
  exact ⟨c :: x, y, by simp [hy]⟩

theorem subseg_of_subseg_drop {q s : List Char} (k : Nat) (h : SubSeg q (List.drop k s)) :
    SubSeg q s := by
  obtain ⟨x, y, hy⟩ := h
  have hs : s = List.take k s ++ (x ++ q ++ y) := by
    rw [← hy, List.take_append_drop]
  refine ⟨List.take k s ++ x, y, ?_⟩
  conv_lhs => rw [hs]
  simp [List.append_assoc]

theorem subseg_cons_cases {q s : List Char} {c : Char} (h : SubSeg q (c :: s)) :
    Pref q (c :: s) ∨ SubSeg q s := by
  obtain ⟨x, y, hy⟩ := h
  cases x with
  | nil => exact Or.inl ⟨y, by simpa using hy⟩
  | cons d x' =>
    right
    have : c :: s = d :: (x' ++ q ++ y) := by simpa using hy
    exact ⟨x', y, (List.cons.injEq _ _ _ _ ▸ this).2⟩

theorem pref_append_cases {q a b : List Char} (h : Pref q (a ++ b)) :
    Pref q a ∨ ∃ q2, q = a ++ q2 ∧ Pref q2 b := by
  induction a generalizing q with
  | nil =>
    right
    exact ⟨q, rfl, by simpa using h⟩
  | cons c a' ih =>
    obtain ⟨y, hy⟩ := h
    cases q with
    | nil => exact Or.inl ⟨c :: a', rfl⟩
    | cons d q' =>
      have hy' : c :: (a' ++ b) = d :: (q' ++ y) := by simpa using hy
      have hcd : c = d := (List.cons.injEq _ _ _ _ ▸ hy').1
      have htl : a' ++ b = q' ++ y := (List.cons.injEq _ _ _ _ ▸ hy').2
      rcases ih ⟨y, htl⟩ with hq | ⟨q2, hq2, hpb⟩
      · left
        obtain ⟨y', hy''⟩ := hq
        exact ⟨y', by simp [hcd, hy'']⟩
      · right
        exact ⟨q2, by simp [hcd, hq2], hpb⟩

theorem subseg_append_cases {q a b : List Char} (h : SubSeg q (a ++ b)) :
    SubSeg q a ∨ SubSeg q b ∨
      ∃ q1 q2, q = q1 ++ q2 ∧ q1 ≠ [] ∧ q2 ≠ [] ∧ Suff q1 a ∧ Pref q2 b := by
  induction a generalizing q with
  | nil =>
    exact Or.inr (Or.inl (by simpa using h))
  | cons c a' ih =>
    have h' : SubSeg q (c :: (a' ++ b)) := by simpa using h
    rcases subseg_cons_cases h' with hp | hs
    · cases q with
      | nil => exact Or.inl (subseg_nil_left _)
      | cons d q' =>
        obtain ⟨y, hy⟩ := hp
        have hy' : c :: (a' ++ b) = d :: (q' ++ y) := by simpa using hy
        have hcd : c = d := (List.cons.injEq _ _ _ _ ▸ hy').1
        have htl : a' ++ b = q' ++ y := (List.cons.injEq _ _ _ _ ▸ hy').2
        rcases pref_append_cases ⟨y, htl⟩ with hq | ⟨q2, hq2, hpb⟩
        · left
          obtain ⟨y', hy''⟩ := hq
          exact pref_toSubSeg ⟨y', by simp [hcd, hy'']⟩
        · by_cases hq2n : q2 = []
          · left
            subst hq2n
            refine pref_toSubSeg ⟨[], ?_⟩
            simp [hcd, hq2]
          · right; right
            refine ⟨c :: a', q2, ?_, by simp, hq2n, ⟨[], by simp⟩, hpb⟩
            simp [hcd, hq2]
    · rcases ih hs with h1 | h2 | ⟨q1, q2, hq, h1n, h2n, hsf, hpf⟩
      · exact Or.inl (subseg_cons_lift c h1)
      · exact Or.inr (Or.inl h2)
      · obtain ⟨x, hx⟩ := hsf
        exact Or.inr (Or.inr ⟨q1, q2, hq, h1n, h2n, ⟨c :: x, by simp [hx]⟩, hpf⟩)

theorem subseg_mem {q s : List Char} {c : Char} (h : SubSeg q s) (hc : c ∈ q) : c ∈ s := by
  obtain ⟨x, y, hy⟩ := h
  rw [hy]
  simp [hc]

theorem getLast?_cons_of_ne_nil {l : List Char} (c : Char) (h : l ≠ []) :
    (c :: l).getLast? = l.getLast? := by
  cases l with
  | nil => exact absurd rfl h
  | cons d ds => exact List.getLast?_cons_cons

/-- Uppercase ASCII letter, the alphabet of the canonical operator tags. -/
def asciiUp (c : Char) : Prop := 'A' ≤ c ∧ c ≤ 'Z'

instance (c : Char) : Decidable (asciiUp c) := by
  unfold asciiUp
  infer_instance

/-- `NoUp q`: the segment `q` contains no uppercase ASCII letter. -/
def NoUp (q : List Char) : Prop := ∀ c ∈ q, ¬ asciiUp c

instance (q : List Char) : Decidable (NoUp q) := by
  unfold NoUp
  infer_instance

/-- A localized operator phrase: non-empty, free of uppercase ASCII letters,
and neither starting nor ending with a space. -/
def CleanPat (p : List Char) : Prop :=
  p ≠ [] ∧ NoUp p ∧ p.head? ≠ some ' ' ∧ p.getLast? ≠ some ' '

/-- A canonical replacement string: a space, a non-empty run of uppercase
ASCII letters, and a space. -/
def TagRep (r : List Char) : Prop :=
  ∃ w, r = ' ' :: (w ++ [' ']) ∧ w ≠ [] ∧ ∀ c ∈ w, asciiUp c

theorem tagRep_pref {r q : List Char} (hr : TagRep r) (h : Pref q r) (hup : NoUp q)
    (hlast : q.getLast? ≠ some ' ') : q = [] := by
  obtain ⟨w, hrw, hwne, hwup⟩ := hr
  obtain ⟨y, hy⟩ := h
  cases q with
  | nil => rfl
  | cons d q' =>
    exfalso
    rw [hrw] at hy
    have hy' : ' ' :: (w ++ [' ']) = d :: (q' ++ y) := by simpa using hy
    have hd : ' ' = d := (List.cons.injEq _ _ _ _ ▸ hy').1
    have htl : w ++ [' '] = q' ++ y := (List.cons.injEq _ _ _ _ ▸ hy').2
    cases q' with
    | nil =>
      apply hlast
      rw [← hd]
      rfl
    | cons e q'' =>
      cases w with
      | nil => exact hwne rfl
      | cons f w' =>
        have hw' : f :: (w' ++ [' ']) = e :: (q'' ++ y) := by simpa using htl
        have hf : f = e := (List.cons.injEq _ _ _ _ ▸ hw').1
        refine hup e ?_ ?_
        · simp
        · rw [← hf]
          exact hwup f (by simp)

theorem tagRep_suff {r q : List Char} (hr : TagRep r) (h : Suff q r) (hup : NoUp q)
    (hne : q ≠ []) : q = [' '] := by
  obtain ⟨w, hrw, hwne, hwup⟩ := hr
  obtain ⟨x, hx⟩ := h
  -- pass to reversed lists: q.reverse is an initial segment of r.reverse
  have hrev : r.reverse = q.reverse ++ x.reverse := by
    rw [hx]
    simp
  have hrrev : r.reverse = ' ' :: (w.reverse ++ [' ']) := by
    rw [hrw]
    simp
  cases hq : q.reverse with
  | nil =>
    exact absurd (by simpa using hq) hne
  | cons d q' =>
    rw [hrrev, hq] at hrev
    have hd : ' ' = d := (List.cons.injEq _ _ _ _ ▸ hrev).1
    have htl : w.reverse ++ [' '] = q' ++ x.reverse := (List.cons.injEq _ _ _ _ ▸ hrev).2
    cases q' with
    | nil =>
      have : q.reverse = [' '] := by rw [hq, ← hd]
      have hq1 : q = [' '] := by
        have := congrArg List.reverse this
        simpa using this
      exact hq1
    | cons e q'' =>
      exfalso
      cases hw : w.reverse with
      | nil =>
        have : w = [] := by simpa using hw
        exact hwne this
      | cons f w' =>
        rw [hw] at htl
        have hw' : f :: (w' ++ [' ']) = e :: (q'' ++ x.reverse) := by simpa using htl
        have hf : f = e := (List.cons.injEq _ _ _ _ ▸ hw').1
        have hfw : f ∈ w := by
          have : f ∈ w.reverse := by rw [hw]; simp
          simpa using this
        have heq : e ∈ q := by
          have : e ∈ q.reverse := by rw [hq]; simp
          simpa using this
        exact hup e heq (hf ▸ hwup f hfw)

theorem tagRep_subseg {r q : List Char} (hr : TagRep r) (h : SubSeg q r) (hup : NoUp q)
    (hhead : q.head? ≠ some ' ') : q = [] := by
  obtain ⟨w, hrw, hwne, hwup⟩ := hr
  cases q with
  | nil => rfl
  | cons d q' =>
    exfalso
    have hd : d ∈ r := subseg_mem h (by simp)
    rw [hrw] at hd
    simp at hd
    rcases hd with hd | hd | hd
    · exact hhead (by rw [hd]; rfl)
    · exact hup d (by simp) (hwup d hd)
    · exact hhead (by rw [hd]; rfl)

theorem pref_pyReplaceF {r : List Char} (hr : TagRep r) (p : List Char) :
    ∀ n s q, s.length ≤ n → Pref q (pyReplaceF p r n s) → NoUp q →
      q.getLast? ≠ some ' ' → Pref q s := by
  intro n
  induction n with
  | zero =>
    intro s q hs hpref _ _
    have hsnil : s = [] := List.length_eq_zero.mp (Nat.le_zero.mp hs)
    subst hsnil
    rw [pyReplaceF_nil] at hpref
    obtain ⟨y, hy⟩ := hpref
    have : q = [] := (List.append_eq_nil.mp hy.symm).1
    exact ⟨[], by simp [this]⟩
  | succ n ih =>
    intro s q hs hpref hup hlast
    cases s with
    | nil =>
      rw [pyReplaceF_nil] at hpref
      obtain ⟨y, hy⟩ := hpref
      have : q = [] := (List.append_eq_nil.mp hy.symm).1
      exact ⟨[], by simp [this]⟩
    | cons c cs =>
      by_cases hc : p ≠ [] ∧ leadsWith p (c :: cs) = true
      · rw [pyReplaceF_cons_pos _ _ _ _ _ hc] at hpref
        rcases pref_append_cases hpref with hqr | ⟨q2, hq2, _⟩
        · have hq : q = [] := tagRep_pref hr hqr hup hlast
          exact ⟨c :: cs, by simp [hq]⟩
        · exfalso
          obtain ⟨w, hrw, hwne, hwup⟩ := hr
          cases w with
          | nil => exact hwne rfl
          | cons f w' =>
            refine hup f ?_ (hwup f (by simp))
            rw [hq2, hrw]
            simp
      · rw [pyReplaceF_cons_neg _ _ _ _ _ hc] at hpref
        obtain ⟨y, hy⟩ := hpref
        cases q with
        | nil => exact ⟨c :: cs, by simp⟩
        | cons d q' =>
          have hy' : c :: pyReplaceF p r n cs = d :: (q' ++ y) := by simpa using hy
          have hcd : c = d := (List.cons.injEq _ _ _ _ ▸ hy').1
          have htl : pyReplaceF p r n cs = q' ++ y := (List.cons.injEq _ _ _ _ ▸ hy').2
          by_cases hq' : q' = []
          · subst hq'
            exact ⟨cs, by simp [hcd]⟩
          · have hlast' : q'.getLast? ≠ some ' ' := by
              rwa [getLast?_cons_of_ne_nil d hq'] at hlast
            have hup' : NoUp q' := fun x hx => hup x (List.mem_cons_of_mem d hx)
            have hlen : cs.length ≤ n := by
              have := hs
              simp only [List.length_cons] at this
              omega
            obtain ⟨y', hy''⟩ := ih cs q' hlen ⟨y, htl⟩ hup' hlast'
            exact ⟨y', by simp [hcd, hy'']⟩

theorem pyReplaceF_no_pat {p r : List Char} (hp : CleanPat p) (hr : TagRep r) :
    ∀ n s, s.length ≤ n → ¬ SubSeg p (pyReplaceF p r n s) := by
  obtain ⟨hpne, hpup, hphead, hplast⟩ := hp
  intro n
  induction n with
  | zero =>
    intro s hs hsub
    have hsnil : s = [] := List.length_eq_zero.mp (Nat.le_zero.mp hs)
    subst hsnil
    rw [pyReplaceF_nil] at hsub
    exact hpne (subseg_nil_right hsub)
  | succ n ih =>
    intro s hs hsub
    cases s with
    | nil =>
      rw [pyReplaceF_nil] at hsub
      exact hpne (subseg_nil_right hsub)
    | cons c cs =>
      have hlen : cs.length ≤ n := by
        simp only [List.length_cons] at hs
        omega
      by_cases hc : p ≠ [] ∧ leadsWith p (c :: cs) = true
      · rw [pyReplaceF_cons_pos _ _ _ _ _ hc] at hsub
        rcases subseg_append_cases hsub with h1 | h2 | ⟨q1, q2, hq, h1n, _, hsf, _⟩
        · exact hpne (tagRep_subseg hr h1 hpup hphead)
        · have hdlen : (List.drop (p.length - 1) cs).length ≤ n := by
            rw [List.length_drop]
            omega
          exact ih _ hdlen h2
        · have hq1up : NoUp q1 := by
            intro x hx
            refine hpup x ?_
            rw [hq]
            simp [hx]
          have hsp : q1 = [' '] := tagRep_suff hr hsf hq1up h1n
          apply hphead
          rw [hq, hsp]
          rfl
      · rw [pyReplaceF_cons_neg _ _ _ _ _ hc] at hsub
        rcases subseg_cons_cases hsub with hpref | hsub'
        · obtain ⟨y, hy⟩ := hpref
          cases p with
          | nil => exact hpne rfl
          | cons d p' =>
            have hy' : c :: pyReplaceF (d :: p') r n cs = d :: (p' ++ y) := by simpa using hy
            have hcd : c = d := (List.cons.injEq _ _ _ _ ▸ hy').1
            have htl : pyReplaceF (d :: p') r n cs = p' ++ y := (List.cons.injEq _ _ _ _ ▸ hy').2
            have hpcons : Pref (d :: p') (c :: cs) := by
              by_cases hp' : p' = []
              · subst hp'
                exact ⟨cs, by simp [hcd]⟩
              · have hup' : NoUp p' := fun x hx => hpup x (List.mem_cons_of_mem d hx)
                have hlast' : p'.getLast? ≠ some ' ' := by
                  rwa [getLast?_cons_of_ne_nil d hp'] at hplast
                obtain ⟨y', hy''⟩ := pref_pyReplaceF hr (d :: p') n cs p' hlen ⟨y, htl⟩ hup' hlast'
                exact ⟨y', by simp [hcd, hy'']⟩
            exact hc ⟨hpne, (leadsWith_iff (d :: p') (c :: cs)).mpr hpcons⟩
        · exact ih cs hlen hsub'

theorem pyReplaceF_no_new {q r : List Char} (hq : CleanPat q) (hr : TagRep r)
    (p : List Char) :
    ∀ n s, s.length ≤ n → ¬ SubSeg q s → ¬ SubSeg q (pyReplaceF p r n s) := by
  obtain ⟨hqne, hqup, hqhead, hqlast⟩ := hq
  intro n
  induction n with
  | zero =>
    intro s hs hns hsub
    have hsnil : s = [] := List.length_eq_zero.mp (Nat.le_zero.mp hs)
    subst hsnil
    rw [pyReplaceF_nil] at hsub
    exact hqne (subseg_nil_right hsub)
  | succ n ih =>
    intro s hs hns hsub
    cases s with
    | nil =>
      rw [pyReplaceF_nil] at hsub
      exact hqne (subseg_nil_right hsub)
    | cons c cs =>
      have hlen : cs.length ≤ n := by
        simp only [List.length_cons] at hs
        omega
      have hnscs : ¬ SubSeg q cs := fun h => hns (subseg_cons_lift c h)
      by_cases hc : p ≠ [] ∧ leadsWith p (c :: cs) = true
      · rw [pyReplaceF_cons_pos _ _ _ _ _ hc] at hsub
        rcases subseg_append_cases hsub with h1 | h2 | ⟨q1, q2, hqq, h1n, _, hsf, _⟩
        · exact hqne (tagRep_subseg hr h1 hqup hqhead)
        · have hdlen : (List.drop (p.length - 1) cs).length ≤ n := by
            rw [List.length_drop]
            omega
          have hnd : ¬ SubSeg q (List.drop (p.length - 1) cs) := fun h =>
            hnscs (subseg_of_subseg_drop _ h)
          exact ih _ hdlen hnd h2
        · have hq1up : NoUp q1 := by
            intro x hx
            refine hqup x ?_
            rw [hqq]
            simp [hx]
          have hsp : q1 = [' '] := tagRep_suff hr hsf hq1up h1n
          apply hqhead
          rw [hqq, hsp]
          rfl
      · rw [pyReplaceF_cons_neg _ _ _ _ _ hc] at hsub
        rcases subseg_cons_cases hsub with hpref | hsub'
        · obtain ⟨y, hy⟩ := hpref
          cases q with
          | nil => exact hqne rfl
          | cons d q' =>
            have hy' : c :: pyReplaceF p r n cs = d :: (q' ++ y) := by simpa using hy
            have hcd : c = d := (List.cons.injEq _ _ _ _ ▸ hy').1
            have htl : pyReplaceF p r n cs = q' ++ y := (List.cons.injEq _ _ _ _ ▸ hy').2
            have hqcons : Pref (d :: q') (c :: cs) := by
              by_cases hq' : q' = []
              · subst hq'
                exact ⟨cs, by simp [hcd]⟩
              · have hup' : NoUp q' := fun x hx => hqup x (List.mem_cons_of_mem d hx)
                have hlast' : q'.getLast? ≠ some ' ' := by
                  rwa [getLast?_cons_of_ne_nil d hq'] at hqlast
                obtain ⟨y', hy''⟩ := pref_pyReplaceF hr p n cs q' hlen ⟨y, htl⟩ hup' hlast'
                exact ⟨y', by simp [hcd, hy'']⟩
            exact hns (pref_toSubSeg hqcons)
        · exact ih cs hlen hnscs hsub'

theorem pyReplaceF_id (p r : List Char) :
    ∀ n s, s.length ≤ n → ¬ SubSeg p s → pyReplaceF p r n s = s := by
  intro n
  induction n with
  | zero =>
    intro s hs _
    have hsnil : s = [] := List.length_eq_zero.mp (Nat.le_zero.mp hs)
    subst hsnil
    rfl
  | succ n ih =>
    intro s hs hns
    cases s with
    | nil => rfl
    | cons c cs =>
      have hlen : cs.length ≤ n := by
        simp only [List.length_cons] at hs
        omega
      by_cases hc : p ≠ [] ∧ leadsWith p (c :: cs) = true
      · exfalso
        exact hns (pref_toSubSeg ((leadsWith_iff p (c :: cs)).mp hc.2))
      · rw [pyReplaceF_cons_neg _ _ _ _ _ hc]
        have hnscs : ¬ SubSeg p cs := fun h => hns (subseg_cons_lift c h)
        rw [ih cs hlen hnscs]

theorem pyReplaceF_fuel (p r : List Char) :
    ∀ n m (s : List Char), s.length ≤ n → s.length ≤ m →
      pyReplaceF p r n s = pyReplaceF p r m s := by
  intro n
  induction n with
  | zero =>
    intro m s hn _
    have hs : s = [] := List.length_eq_zero.mp (Nat.le_zero.mp hn)
    subst hs
    rw [pyReplaceF_nil, pyReplaceF_nil]
  | succ n ih =>
    intro m s hn hm
    cases s with
    | nil => rw [pyReplaceF_nil, pyReplaceF_nil]
    | cons c cs =>
      have hlen : cs.length + 1 ≤ n + 1 := by simpa using hn
      have hmlen : cs.length + 1 ≤ m := by simpa using hm
      cases m with
      | zero => omega
      | succ m =>
        by_cases hc : p ≠ [] ∧ leadsWith p (c :: cs) = true
        · rw [pyReplaceF_cons_pos _ _ _ _ _ hc, pyReplaceF_cons_pos _ _ _ _ _ hc]
          have hd : (List.drop (p.length - 1) cs).length ≤ cs.length := by
            rw [List.length_drop]
            omega
          rw [ih m _ (by omega) (by omega)]
        · rw [pyReplaceF_cons_neg _ _ _ _ _ hc, pyReplaceF_cons_neg _ _ _ _ _ hc]
          rw [ih m cs (by omega) (by omega)]

theorem pyReplace_no_pat {p r : List Char} (hp : CleanPat p) (hr : TagRep r)
    (s : List Char) : ¬ SubSeg p (pyReplace p r s) :=
  pyReplaceF_no_pat hp hr s.length s le_rfl

theorem pyReplace_no_new {q r : List Char} (hq : CleanPat q) (hr : TagRep r)
    (p s : List Char) (h : ¬ SubSeg q s) : ¬ SubSeg q (pyReplace p r s) :=
  pyReplaceF_no_new hq hr p s.length s le_rfl h

theorem pyReplace_id {p : List Char} (r : List Char) {s : List Char}
    (h : ¬ SubSeg p s) : pyReplace p r s = s :=
  pyReplaceF_id p r s.length s le_rfl h

/-- `parse_expression` from `src/main.py`: replace each localized operator
phrase, in the dictionary's insertion order, by the canonical tag padded with
spaces. -/
def parse_expression (expression : List Char) : List Char :=
  pyReplace "исключающее или".data " XOR ".data
    (pyReplace "эквивалентность".data " EQUIV ".data
      (pyReplace "отрицание".data " NOT ".data
        (pyReplace "импликация".data " IMPLIES ".data
          (pyReplace "дизъюнкция".data " OR ".data
            (pyReplace "конъюнкция".data " AND ".data expression)))))

/-- The cleaning pass of `get_variables` from `src/main.py`: replace each
localized operator phrase, in the same order, by a single space. -/
def stripPhrases (expression : List Char) : List Char :=
  pyReplace "исключающее или".data " ".data
    (pyReplace "эквивалентность".data " ".data
      (pyReplace "отрицание".data " ".data
        (pyReplace "импликация".data " ".data
          (pyReplace "дизъюнкция".data " ".data
            (pyReplace "конъюнкция".data " ".data expression)))))

/-- Python `c.isalpha() and c.isascii()`: exactly the ASCII letters. -/
def isPyAlpha (c : Char) : Bool :=
  decide ('A' ≤ c ∧ c ≤ 'Z') || decide ('a' ≤ c ∧ c ≤ 'z')

/-- Insert a character into a strictly sorted duplicate-free list, keeping it
strictly sorted and duplicate-free. -/
def insertDistinct (c : Char) : List Char → List Char
  | [] => [c]
  | d :: ds =>
    if c = d then d :: ds
    else if c < d then c :: d :: ds
    else d :: insertDistinct c ds

/-- Python `sorted(set(l))`: the strictly sorted list of the distinct
elements of `l`. -/
def sortedDedup (l : List Char) : List Char := l.foldr insertDistinct []

/-- `get_variables` from `src/main.py`: strip the localized operator phrases,
keep the ASCII letters, and return the sorted set of them. -/
def get_variables (expression : List Char) : List Char :=
  sortedDedup ((stripPhrases expression).filter isPyAlpha)

theorem cleanPat_phrases :
    CleanPat "конъюнкция".data ∧ CleanPat "дизъюнкция".data ∧
    CleanPat "импликация".data ∧ CleanPat "отрицание".data ∧
    CleanPat "эквивалентность".data ∧ CleanPat "исключающее или".data := by
  refine ⟨?_, ?_, ?_, ?_, ?_, ?_⟩ <;> exact ⟨by decide, by decide, by decide, by decide⟩

theorem tagRep_and : TagRep " AND ".data := ⟨"AND".data, by decide, by decide, by decide⟩

theorem tagRep_or : TagRep " OR ".data := ⟨"OR".data, by decide, by decide, by decide⟩

theorem tagRep_implies : TagRep " IMPLIES ".data :=
  ⟨"IMPLIES".data, by decide, by decide, by decide⟩

theorem tagRep_not : TagRep " NOT ".data := ⟨"NOT".data, by decide, by decide, by decide⟩

theorem tagRep_equiv : TagRep " EQUIV ".data :=
  ⟨"EQUIV".data, by decide, by decide, by decide⟩

theorem tagRep_xor : TagRep " XOR ".data := ⟨"XOR".data, by decide, by decide, by decide⟩

/-- After one pass of `parse_expression`, none of the six localized phrases
occurs anywhere in the output. -/
theorem parse_expression_phrase_free (s : List Char) :
    ¬ SubSeg "конъюнкция".data (parse_expression s) ∧
    ¬ SubSeg "дизъюнкция".data (parse_expression s) ∧
    ¬ SubSeg "импликация".data (parse_expression s) ∧
    ¬ SubSeg "отрицание".data (parse_expression s) ∧
    ¬ SubSeg "эквивалентность".data (parse_expression s) ∧
    ¬ SubSeg "исключающее или".data (parse_expression s) := by
  obtain ⟨c1, c2, c3, c4, c5, c6⟩ := cleanPat_phrases
  have e1 : parse_expression s =
      pyReplace "исключающее или".data " XOR ".data
        (pyReplace "эквивалентность".data " EQUIV ".data
          (pyReplace "отрицание".data " NOT ".data
            (pyReplace "импликация".data " IMPLIES ".data
              (pyReplace "дизъюнкция".data " OR ".data
                (pyReplace "конъюнкция".data " AND ".data s))))) := rfl
  rw [e1]
  refine ⟨?_, ?_, ?_, ?_, ?_, ?_⟩
  · exact pyReplace_no_new c1 tagRep_xor _ _
      (pyReplace_no_new c1 tagRep_equiv _ _
        (pyReplace_no_new c1 tagRep_not _ _
          (pyReplace_no_new c1 tagRep_implies _ _
            (pyReplace_no_new c1 tagRep_or _ _
              (pyReplace_no_pat c1 tagRep_and _)))))
  · exact pyReplace_no_new c2 tagRep_xor _ _
      (pyReplace_no_new c2 tagRep_equiv _ _
        (pyReplace_no_new c2 tagRep_not _ _
          (pyReplace_no_new c2 tagRep_implies _ _
            (pyReplace_no_pat c2 tagRep_or _))))
  · exact pyReplace_no_new c3 tagRep_xor _ _
      (pyReplace_no_new c3 tagRep_equiv _ _
        (pyReplace_no_new c3 tagRep_not _ _
          (pyReplace_no_pat c3 tagRep_implies _)))
  · exact pyReplace_no_new c4 tagRep_xor _ _
      (pyReplace_no_new c4 tagRep_equiv _ _
        (pyReplace_no_pat c4 tagRep_not _))
  · exact pyReplace_no_new c5 tagRep_xor _ _
      (pyReplace_no_pat c5 tagRep_equiv _)
  · exact pyReplace_no_pat c6 tagRep_xor _

/-- C10: canonicalization is idempotent — one pass of `parse_expression`
removes every occurrence of the six localized operator phrases, and the
whitespace-padded canonical tags can never form or reveal a new phrase
occurrence, so a second pass is the identity. -/
theorem C10_parse_expression_idempotent (s : List Char) :
    parse_expression (parse_expression s) = parse_expression s := by
  obtain ⟨f1, f2, f3, f4, f5, f6⟩ := parse_expression_phrase_free s
  show pyReplace "исключающее или".data " XOR ".data
      (pyReplace "эквивалентность".data " EQUIV ".data
        (pyReplace "отрицание".data " NOT ".data
          (pyReplace "импликация".data " IMPLIES ".data
            (pyReplace "дизъюнкция".data " OR ".data
              (pyReplace "конъюнкция".data " AND ".data (parse_expression s))))))
      = parse_expression s
  rw [pyReplace_id _ f1, pyReplace_id _ f2, pyReplace_id _ f3, pyReplace_id _ f4,
    pyReplace_id _ f5, pyReplace_id _ f6]

/-- Whitespace for Python `str.split()`: the characters Python 3 treats as
whitespace (ASCII whitespace, the information separators, NEL, and the
Unicode space characters). -/
def isPyWs (c : Char) : Bool :=
  decide (c = ' ') || decide (c = '\t') || decide (c = '\n') || decide (c = '\r') ||
  decide (c.toNat = 11) || decide (c.toNat = 12) ||
  decide (28 ≤ c.toNat ∧ c.toNat ≤ 31) || decide (c.toNat = 133) || decide (c.toNat = 160) ||
  decide (c.toNat = 5760) || decide (8192 ≤ c.toNat ∧ c.toNat ≤ 8202) ||
  decide (c.toNat = 8232) || decide (c.toNat = 8233) || decide (c.toNat = 8239) ||
  decide (c.toNat = 8287) || decide (c.toNat = 12288)

/-- Python `str.split()` with no separator: maximal runs of non-whitespace
characters, with no empty tokens.  `acc` holds the characters of the current
token in reverse. -/
def pySplitAux : List Char → List Char → List (List Char)
  | [], acc => if acc = [] then [] else [acc.reverse]
  | c :: cs, acc =>
    if isPyWs c then
      if acc = [] then pySplitAux cs [] else acc.reverse :: pySplitAux cs []
    else
      pySplitAux cs (c :: acc)

/-- Python `s.split()`. -/
def pySplit (s : List Char) : List (List Char) := pySplitAux s []

/-- The token stream of `evaluate_step`:
`parse_expression(expression).replace('(', ' ( ').replace(')', ' ) ').split()`. -/
def pyTokens (expression : List Char) : List (List Char) :=
  pySplit (pyReplace [')'] " ) ".data (pyReplace ['('] " ( ".data
    (parse_expression expression)))

/-- A Python value that can appear on the evaluator's `stack`: an operator
name string, or a Boolean. -/
inductive PyVal where
  | pstr (s : List Char)
  | pbool (b : Bool)
deriving DecidableEq

/-- Exceptions that `evaluate_step` can raise: the explicit
`ValueError("Undefined variable: ...")` check, the `TypeError` from calling
the unary `negation` with two arguments, and the `IndexError` from reading
`stack[0]` of an empty list. -/
inductive Err where
  | undefinedVariable (t : List Char)
  | typeError
  | indexError
deriving DecidableEq

/-- Result of running code that may raise one of the exceptions above. -/
inductive Res (α : Type) where
  | ok (val : α)
  | err (e : Err)
deriving DecidableEq

/-- Python truthiness for the values that reach the truth functions:
a Boolean is itself; a string is truthy when non-empty. -/
def truthy : PyVal → Bool
  | .pstr s => decide (s ≠ [])
  | .pbool b => b

/-- Python `==` between the values that reach `equivalence`/`exclusive_or`:
strings compare by content, Booleans by value, mixed types are unequal. -/
def pyEqB : PyVal → PyVal → Bool
  | .pstr s, .pstr t => decide (s = t)
  | .pbool a, .pbool b => a == b
  | _, _ => false

/-- `conjunction` from `src/main.py`: Python `a and b`. -/
def conjunction (a b : PyVal) : PyVal := if truthy a then b else a

/-- `disjunction` from `src/main.py`: Python `a or b`. -/
def disjunction (a b : PyVal) : PyVal := if truthy a then a else b

/-- `implication` from `src/main.py`: Python `(not a) or b`. -/
def implication (a b : PyVal) : PyVal := if truthy a then b else .pbool true

/-- `negation` from `src/main.py`: Python `not a`. -/
def negation (a : PyVal) : PyVal := .pbool (! truthy a)

/-- `equivalence` from `src/main.py`: Python `a == b`. -/
def equivalence (a b : PyVal) : PyVal := .pbool (pyEqB a b)

/-- `exclusive_or` from `src/main.py`: Python `a != b`. -/
def exclusive_or (a b : PyVal) : PyVal := .pbool (! pyEqB a b)

/-- The keys of the `operations` dictionary, in order. -/
def opNames : List (List Char) :=
  ["AND".data, "OR".data, "IMPLIES".data, "NOT".data, "EQUIV".data, "XOR".data]

/-- `operations[op](operand1, operand2)` for an `op` that is a key of the
dictionary: the five binary truth functions, and a `TypeError` when `op` is
`NOT` because `negation` takes a single argument. -/
def applyBin (op : List Char) (a b : PyVal) : Res PyVal :=
  if op = "AND".data then .ok (conjunction a b)
  else if op = "OR".data then .ok (disjunction a b)
  else if op = "IMPLIES".data then .ok (implication a b)
  else if op = "NOT".data then .err .typeError
  else if op = "EQUIV".data then .ok (equivalence a b)
  else if op = "XOR".data then .ok (exclusive_or a b)
  else .err .typeError

/-- A stack frame: the `stack` entry paired with the `value_stack` entry at
the same height (the two Python lists always have equal length; the head of
this list is the top of the stacks). -/
abbrev Frame := PyVal × List Char

/-- An evaluation step: display text and the value pushed for it. -/
abbrev Step := List Char × PyVal

/-- Display text of a binary reduction: Python `f"({val1} {operator} {val2})"`. -/
def binText (t1 op t2 : List Char) : List Char :=
  '(' :: (t1 ++ (' ' :: (op ++ (' ' :: (t2 ++ [')'])))))

/-- Display text of a unary reduction: Python `f"NOT({val})"`. -/
def notText (t : List Char) : List Char := "NOT(".data ++ (t ++ [')'])

/-- The shared body of the `len(stack) >= 3` branch of the `)` token and of
the final `while` loop: pop `operand2`, the operator entry, `operand1`; when
the popped operator entry is an `operations` key, apply it, push the result
and record a step; otherwise the three popped frames are silently dropped. -/
def binReduce (f2 fo f1 : Frame) (rest : List Frame) (steps : List Step) :
    Res (List Frame × List Step) :=
  match fo.1 with
  | .pstr op =>
    if op ∈ opNames then
      match applyBin op f1.1 f2.1 with
      | .ok rv =>
        .ok ((rv, binText f1.2 op f2.2) :: rest, steps ++ [(binText f1.2 op f2.2, rv)])
      | .err e => .err e
    else .ok (rest, steps)
  | .pbool _ => .ok (rest, steps)

/-- The reduction performed on a `)` token in `evaluate_step`:
with at least 3 frames, pop three and reduce when the middle entry is an
`operations` key (dropping the frames silently otherwise); with exactly 2
frames whose bottom is the string `'NOT'`, apply the unary reduction;
otherwise leave the stacks unchanged. -/
def closeParen (st : List Frame) (steps : List Step) : Res (List Frame × List Step) :=
  match st with
  | f2 :: fo :: f1 :: rest => binReduce f2 fo f1 rest steps
  | [(v, t), (opv, _)] =>
    if opv = .pstr "NOT".data then
      .ok ([(negation v, notText t)], steps ++ [(notText t, negation v)])
    else .ok (st, steps)
  | _ => .ok (st, steps)

/-- The token loop of `evaluate_step`: skip `(`, reduce on `)`, push operator
tokens, look up any other token in the assignment and raise the
undefined-variable `ValueError` when it is missing. -/
def runLoop (values : List (List Char × Bool)) :
    List (List Char) → List Frame → List Step → Res (List Frame × List Step)
  | [], st, steps => .ok (st, steps)
  | tok :: rest, st, steps =>
    if tok = "(".data then runLoop values rest st steps
    else if tok = ")".data then
      match closeParen st steps with
      | .ok (st', steps') => runLoop values rest st' steps'
      | .err e => .err e
    else if tok ∈ opNames then runLoop values rest ((.pstr tok, tok) :: st) steps
    else
      match values.lookup tok with
      | some b => runLoop values rest ((.pbool b, tok) :: st) steps
      | none => .err (.undefinedVariable tok)

/-- Fuel-indexed final `while len(stack) >= 3` flush of `evaluate_step`:
repeatedly pop three frames and reduce when the middle entry is an
`operations` key (dropping the frames silently otherwise).  Each iteration
shortens the stack by at least two frames, so the stack height is enough
fuel. -/
def flushF : Nat → List Frame → List Step → Res (List Frame × List Step)
  | 0, st, steps => .ok (st, steps)
  | n + 1, st, steps =>
    match st with
    | f2 :: fo :: f1 :: rest =>
      match binReduce f2 fo f1 rest steps with
      | .ok (st', steps') => flushF n st' steps'
      | .err e => .err e
    | _ => .ok (st, steps)

/-- The final flush of `evaluate_step`. -/
def flush (st : List Frame) (steps : List Step) : Res (List Frame × List Step) :=
  flushF st.length st steps

/-- `evaluate_step` from `src/main.py`: canonicalize, tokenize, run the token
loop, flush, and return `stack[0]` (the bottom frame) with the recorded
steps; reading `stack[0]` of an empty stack raises an `IndexError`. -/
def evaluate_step (expression : List Char) (values : List (List Char × Bool)) :
    Res (PyVal × List Step) :=
  match runLoop values (pyTokens expression) [] [] with
  | .err e => .err e
  | .ok (st, steps) =>
    match flush st steps with
    | .err e => .err e
    | .ok (st2, steps2) =>
      match st2.getLast? with
      | none => .err .indexError
      | some (v, _) => .ok (v, steps2)

theorem flushF_small (st : List Frame) (steps : List Step) (h : st.length < 3) :
    ∀ n, flushF n st steps = .ok (st, steps) := by
  intro n
  cases n with
  | zero => rfl
  | succ n =>
    match st with
    | [] => rfl
    | [a] => rfl
    | [a, b] => rfl
    | a :: b :: c :: rest =>
      exfalso
      simp only [List.length_cons] at h
      omega

theorem binReduce_length {f2 fo f1 : Frame} {rest : List Frame} {steps : List Step}
    {st' : List Frame} {steps' : List Step}
    (h : binReduce f2 fo f1 rest steps = .ok (st', steps')) :
    st'.length ≤ rest.length + 1 := by
  obtain ⟨fov, fot⟩ := fo
  cases fov with
  | pstr op =>
    simp only [binReduce] at h
    by_cases hop : op ∈ opNames
    · rw [if_pos hop] at h
      cases happ : applyBin op f1.1 f2.1 with
      | ok rv =>
        rw [happ] at h
        cases h
        simp
      | err e =>
        rw [happ] at h
        cases h
    · rw [if_neg hop] at h
      cases h
      simp
  | pbool b =>
    simp only [binReduce] at h
    cases h
    simp

theorem flushF_cons3 (n : Nat) (f2 fo f1 : Frame) (rest : List Frame) (steps : List Step) :
    flushF (n + 1) (f2 :: fo :: f1 :: rest) steps =
      match binReduce f2 fo f1 rest steps with
      | .ok (st', steps') => flushF n st' steps'
      | .err e => .err e := rfl

theorem flushF_fuel : ∀ n m (st : List Frame) (steps : List Step),
    st.length ≤ n → st.length ≤ m → flushF n st steps = flushF m st steps := by
  intro n
  induction n with
  | zero =>
    intro m st steps hn _
    have : st = [] := List.length_eq_zero.mp (Nat.le_zero.mp hn)
    subst this
    rw [flushF_small [] steps (by simp), flushF_small [] steps (by simp)]
  | succ n ih =>
    intro m st steps hn hm
    match st with
    | [] => rw [flushF_small [] steps (by simp), flushF_small [] steps (by simp)]
    | [a] => rw [flushF_small [a] steps (by simp), flushF_small [a] steps (by simp)]
    | [a, b] => rw [flushF_small [a, b] steps (by simp), flushF_small [a, b] steps (by simp)]
    | f2 :: fo :: f1 :: rest =>
      have hlen : rest.length + 3 ≤ n + 1 := by simpa using hn
      have hmlen : rest.length + 3 ≤ m := by simpa using hm
      cases m with
      | zero => omega
      | succ m =>
        rw [flushF_cons3, flushF_cons3]
        cases hbr : binReduce f2 fo f1 rest steps with
        | ok p =>
          obtain ⟨st', steps'⟩ := p
          have hst' : st'.length ≤ rest.length + 1 := binReduce_length hbr
          exact ih m st' steps' (by omega) (by omega)
        | err e => rfl

/-- `itertools.product([True, False], repeat=n)`: every `n`-tuple of Booleans,
first coordinate varying slowest, `True` before `False`. -/
def boolProduct : Nat → List (List Bool)
  | 0 => [[]]
  | n + 1 =>
    ((boolProduct n).map (fun bs => true :: bs)) ++
      ((boolProduct n).map (fun bs => false :: bs))

/-- `dict(zip(variables, combo))` where the variables are single-character
strings. -/
def mkValues (vars : List Char) (combo : List Bool) : List (List Char × Bool) :=
  (vars.map (fun c => [c])).zip combo

/-- One row of the truth table model: the assignment bits in variable order,
and the step cells (`'1' if step_results[i][1] else '0'`, with `'0'` filling
when a row produced fewer steps than the schema). -/
def rowCells (schema : Nat) (stepRes : List Step) : List Bool :=
  (List.range schema).map (fun i =>
    match stepRes[i]? with
    | some s => truthy s.2
    | none => false)

/-- The row loop of `generate_truth_table`: evaluate each assignment in order;
any exception aborts the whole build (the Python code catches it and returns
an error message instead of a table). -/
def buildRows (expression : List Char) (vars : List Char) (schema : Nat) :
    List (List Bool) → Res (List (List Bool × List Bool))
  | [] => .ok []
  | combo :: rest =>
    match evaluate_step expression (mkValues vars combo) with
    | .err e => .err e
    | .ok (_, stepRes) =>
      match buildRows expression vars schema rest with
      | .err e => .err e
      | .ok rows => .ok ((combo, rowCells schema stepRes) :: rows)

/-- The data of the table built by `generate_truth_table`: the variable list,
the step schema (display text of each step of the first assignment), and the
rows. -/
structure TTable where
  varNames : List Char
  schema : List (List Char)
  rows : List (List Bool × List Bool)
deriving DecidableEq

/-- `generate_truth_table` from `src/main.py`: extract the variables,
enumerate the assignments, freeze the column schema from the first
assignment's steps (evaluated outside the `try`), then build every row;
the first exception aborts the build with no partial table. -/
def generate_truth_table (expression : List Char) : Res TTable :=
  match evaluate_step expression
      (mkValues (get_variables expression)
        ((boolProduct (get_variables expression).length).headD [])) with
  | .err e => .err e
  | .ok (_, steps0) =>
    match buildRows expression (get_variables expression) steps0.length
        (boolProduct (get_variables expression).length) with
    | .err e => .err e
    | .ok rows => .ok ⟨get_variables expression, steps0.map Prod.fst, rows⟩

/-- The fixed enumeration order on assignments: `a` comes strictly before `b`
when at the first differing position `a` holds `true` and `b` holds `false`
(lexicographic Cartesian-product order over `{true, false}` with `true`
first, most-significant coordinate first). -/
def lexBefore : List Bool → List Bool → Bool
  | [], _ => false
  | _ :: _, [] => false
  | a :: as', b :: bs => (a && !b) || ((a == b) && lexBefore as' bs)

theorem lexBefore_cons (x : Bool) (as bs : List Bool) :
    lexBefore (x :: as) (x :: bs) = lexBefore as bs := by
  cases x <;> simp [lexBefore]

theorem lexBefore_tf (as bs : List Bool) : lexBefore (true :: as) (false :: bs) = true := by
  simp [lexBefore]

theorem lexBefore_ne : ∀ as bs : List Bool, lexBefore as bs = true → as ≠ bs := by
  intro as
  induction as with
  | nil => intro bs h; simp [lexBefore] at h
  | cons a as' ih =>
    intro bs h
    cases bs with
    | nil => simp [lexBefore] at h
    | cons b bs' =>
      rw [lexBefore] at h
      rcases Bool.or_eq_true_iff.mp h with h1 | h2
      · have ha : a = true := ((Bool.and_eq_true _ _).mp h1).1
        have hb : b = false := by
          have := ((Bool.and_eq_true _ _).mp h1).2
          simpa using this
        simp [ha, hb]
      · have hab : a = b := by
          have := ((Bool.and_eq_true _ _).mp h2).1
          simpa using this
        have := ih bs' ((Bool.and_eq_true _ _).mp h2).2
        simp [hab]
        exact this

theorem length_boolProduct : ∀ n, (boolProduct n).length = 2 ^ n := by
  intro n
  induction n with
  | zero => rfl
  | succ n ih =>
    show (((boolProduct n).map _) ++ ((boolProduct n).map _)).length = 2 ^ (n + 1)
    rw [List.length_append, List.length_map, List.length_map, ih, pow_succ]
    omega

theorem mem_boolProduct : ∀ n (bs : List Bool), bs ∈ boolProduct n ↔ bs.length = n := by
  intro n
  induction n with
  | zero =>
    intro bs
    constructor
    · intro h
      simp [boolProduct] at h
      simp [h]
    · intro h
      have : bs = [] := List.length_eq_zero.mp h
      simp [boolProduct, this]
  | succ n ih =>
    intro bs
    constructor
    · intro h
      rcases List.mem_append.mp h with h1 | h1 <;>
      · obtain ⟨cs, hcs, hbs⟩ := List.mem_map.mp h1
        rw [← hbs]
        simp [(ih cs).mp hcs]
    · intro h
      cases bs with
      | nil => simp at h
      | cons b bs' =>
        have hlen : bs'.length = n := by simpa using h
        cases b
        · exact List.mem_append.mpr (Or.inr (List.mem_map.mpr ⟨bs', (ih bs').mpr hlen, rfl⟩))
        · exact List.mem_append.mpr (Or.inl (List.mem_map.mpr ⟨bs', (ih bs').mpr hlen, rfl⟩))

theorem pairwise_boolProduct :
    ∀ n, List.Pairwise (fun a b => lexBefore a b = true) (boolProduct n) := by
  intro n
  induction n with
  | zero => simp [boolProduct]
  | succ n ih =>
    show List.Pairwise _ (((boolProduct n).map _) ++ ((boolProduct n).map _))
    rw [List.pairwise_append]
    refine ⟨?_, ?_, ?_⟩
    · rw [List.pairwise_map]
      exact ih.imp (fun h => by rw [lexBefore_cons]; exact h)
    · rw [List.pairwise_map]
      exact ih.imp (fun h => by rw [lexBefore_cons]; exact h)
    · intro a ha b hb
      obtain ⟨as', _, has⟩ := List.mem_map.mp ha
      obtain ⟨bs', _, hbs⟩ := List.mem_map.mp hb
      rw [← has, ← hbs]
      exact lexBefore_tf as' bs'

theorem nodup_boolProduct (n : Nat) : (boolProduct n).Nodup :=
  (pairwise_boolProduct n).imp (fun h => lexBefore_ne _ _ h)

theorem mem_insertDistinct (a c : Char) :
    ∀ l, a ∈ insertDistinct c l ↔ a = c ∨ a ∈ l := by
  intro l
  induction l with
  | nil => simp [insertDistinct]
  | cons d ds ih =>
    rw [insertDistinct]
    by_cases h1 : c = d
    · subst h1
      rw [if_pos rfl]
      constructor
      · intro h
        exact Or.inr h
      · intro h
        rcases h with h | h
        · simp [h]
        · exact h
    · rw [if_neg h1]
      by_cases h2 : c < d
      · rw [if_pos h2]
        simp
      · rw [if_neg h2]
        simp [ih]
        tauto

theorem pairwise_insertDistinct (c : Char) :
    ∀ l, List.Pairwise (· < ·) l → List.Pairwise (· < ·) (insertDistinct c l) := by
  intro l
  induction l with
  | nil =>
    intro _
    simp [insertDistinct]
  | cons d ds ih =>
    intro h
    have hd : ∀ x ∈ ds, d < x := (List.pairwise_cons.mp h).1
    have hds : List.Pairwise (· < ·) ds := (List.pairwise_cons.mp h).2
    rw [insertDistinct]
    by_cases h1 : c = d
    · rw [if_pos h1]
      exact h
    · rw [if_neg h1]
      by_cases h2 : c < d
      · rw [if_pos h2]
        refine List.pairwise_cons.mpr ⟨?_, h⟩
        intro x hx
        rcases List.mem_cons.mp hx with hx | hx
        · rw [hx]
          exact h2
        · exact lt_trans h2 (hd x hx)
      · rw [if_neg h2]
        have hdc : d < c := by
          rcases lt_trichotomy c d with h3 | h3 | h3
          · exact absurd h3 h2
          · exact absurd h3 h1
          · exact h3
        refine List.pairwise_cons.mpr ⟨?_, ih hds⟩
        intro x hx
        rcases (mem_insertDistinct x c ds).mp hx with hx | hx
        · rw [hx]
          exact hdc
        · exact hd x hx

theorem pairwise_sortedDedup : ∀ l, List.Pairwise (· < ·) (sortedDedup l) := by
  intro l
  induction l with
  | nil => simp [sortedDedup]
  | cons c cs ih => exact pairwise_insertDistinct c _ ih

theorem mem_sortedDedup (a : Char) : ∀ l, a ∈ sortedDedup l ↔ a ∈ l := by
  intro l
  induction l with
  | nil => simp [sortedDedup]
  | cons c cs ih =>
    show a ∈ insertDistinct c (sortedDedup cs) ↔ _
    rw [mem_insertDistinct, ih]
    simp

theorem applyBin_err {op : List Char} {a b : PyVal} {e : Err}
    (h : applyBin op a b = .err e) : e = .typeError := by
  unfold applyBin at h
  split_ifs at h <;> cases h <;> rfl

theorem binReduce_err {f2 fo f1 : Frame} {rest : List Frame} {steps : List Step} {e : Err}
    (h : binReduce f2 fo f1 rest steps = .err e) : e = .typeError := by
  obtain ⟨fov, fot⟩ := fo
  cases fov with
  | pstr op =>
    simp only [binReduce] at h
    by_cases hop : op ∈ opNames
    · rw [if_pos hop] at h
      cases happ : applyBin op f1.1 f2.1 with
      | ok rv =>
        rw [happ] at h
        cases h
      | err e' =>
        rw [happ] at h
        cases h
        exact applyBin_err happ
    · rw [if_neg hop] at h
      cases h
  | pbool b =>
    simp only [binReduce] at h
    cases h

theorem closeParen_err {st : List Frame} {steps : List Step} {e : Err}
    (h : closeParen st steps = .err e) : e = .typeError := by
  match st with
  | f2 :: fo :: f1 :: rest => exact binReduce_err h
  | [(v, t), (opv, topt)] =>
    simp only [closeParen] at h
    by_cases hop : opv = PyVal.pstr "NOT".data
    · rw [if_pos hop] at h
      cases h
    · rw [if_neg hop] at h
      cases h
  | [] => cases h
  | [(v, t)] => cases h

theorem flushF_err : ∀ (n : Nat) (st : List Frame) (steps : List Step) (e : Err),
    flushF n st steps = .err e → e = .typeError := by
  intro n
  induction n with
  | zero =>
    intro st steps e h
    cases h
  | succ n ih =>
    intro st steps e h
    match st with
    | [] => cases h
    | [a] => cases h
    | [a, b] => cases h
    | f2 :: fo :: f1 :: rest =>
      rw [flushF_cons3] at h
      cases hbr : binReduce f2 fo f1 rest steps with
      | ok p =>
        obtain ⟨st', steps'⟩ := p
        rw [hbr] at h
        exact ih st' steps' e h
      | err e' =>
        rw [hbr] at h
        cases h
        exact binReduce_err hbr

theorem runLoop_err (values : List (List Char × Bool)) :
    ∀ (toks : List (List Char)) (st : List Frame) (steps : List Step) (e : Err),
      runLoop values toks st steps = .err e →
        e = .typeError ∨
          ∃ t, e = .undefinedVariable t ∧ t ∈ toks ∧ t ≠ "(".data ∧ t ≠ ")".data ∧
            t ∉ opNames ∧ values.lookup t = none := by
  intro toks
  induction toks with
  | nil =>
    intro st steps e h
    cases h
  | cons tok rest ih =>
    intro st steps e h
    rw [runLoop] at h
    by_cases h1 : tok = "(".data
    · rw [if_pos h1] at h
      rcases ih _ _ _ h with he | ⟨t, ht, hmem, hrest⟩
      · exact Or.inl he
      · exact Or.inr ⟨t, ht, List.mem_cons_of_mem tok hmem, hrest⟩
    · rw [if_neg h1] at h
      by_cases h2 : tok = ")".data
      · rw [if_pos h2] at h
        cases hcp : closeParen st steps with
        | ok p =>
          obtain ⟨st', steps'⟩ := p
          rw [hcp] at h
          rcases ih _ _ _ h with he | ⟨t, ht, hmem, hrest⟩
          · exact Or.inl he
          · exact Or.inr ⟨t, ht, List.mem_cons_of_mem tok hmem, hrest⟩
        | err e' =>
          rw [hcp] at h
          cases h
          exact Or.inl (closeParen_err hcp)
      · rw [if_neg h2] at h
        by_cases h3 : tok ∈ opNames
        · rw [if_pos h3] at h
          rcases ih _ _ _ h with he | ⟨t, ht, hmem, hrest⟩
          · exact Or.inl he
          · exact Or.inr ⟨t, ht, List.mem_cons_of_mem tok hmem, hrest⟩
        · rw [if_neg h3] at h
          cases hlk : values.lookup tok with
          | some b =>
            rw [hlk] at h
            rcases ih _ _ _ h with he | ⟨t, ht, hmem, hrest⟩
            · exact Or.inl he
            · exact Or.inr ⟨t, ht, List.mem_cons_of_mem tok hmem, hrest⟩
          | none =>
            rw [hlk] at h
            cases h
            exact Or.inr ⟨tok, rfl, List.mem_cons_self tok rest, h1, h2, h3, hlk⟩

/-- A token that is not a parenthesis, not a canonical operator tag, and not a
key of the assignment — the tokens the undefined-variable check rejects. -/
def badTokB (values : List (List Char × Bool)) (tok : List Char) : Bool :=
  decide (tok ≠ "(".data) && decide (tok ≠ ")".data) && decide (tok ∉ opNames) &&
    (values.lookup tok).isNone

theorem runLoop_badtok (values : List (List Char × Bool)) :
    ∀ (toks : List (List Char)) (st : List Frame) (steps : List Step) (t : List Char),
      toks.find? (badTokB values) = some t →
        runLoop values toks st steps = .err .typeError ∨
          runLoop values toks st steps = .err (.undefinedVariable t) := by
  intro toks
  induction toks with
  | nil =>
    intro st steps t h
    cases h
  | cons tok rest ih =>
    intro st steps t h
    rw [List.find?_cons] at h
    cases hbad : badTokB values tok with
    | true =>
      rw [hbad] at h
      have ht : tok = t := by
        cases h
        rfl
      have h1 : tok ≠ "(".data := by
        have := hbad
        unfold badTokB at this
        simp only [Bool.and_eq_true, decide_eq_true_eq] at this
        exact this.1.1.1
      have h2 : tok ≠ ")".data := by
        have := hbad
        unfold badTokB at this
        simp only [Bool.and_eq_true, decide_eq_true_eq] at this
        exact this.1.1.2
      have h3 : tok ∉ opNames := by
        have := hbad
        unfold badTokB at this
        simp only [Bool.and_eq_true, decide_eq_true_eq] at this
        exact this.1.2
      have h4 : values.lookup tok = none := by
        have := hbad
        unfold badTokB at this
        simp only [Bool.and_eq_true, decide_eq_true_eq] at this
        exact Option.isNone_iff_eq_none.mp this.2
      right
      rw [runLoop, if_neg h1, if_neg h2, if_neg h3, h4, ht]
    | false =>
      rw [hbad] at h
      rw [runLoop]
      by_cases h1 : tok = "(".data
      · rw [if_pos h1]
        exact ih st steps t h
      · rw [if_neg h1]
        by_cases h2 : tok = ")".data
        · rw [if_pos h2]
          cases hcp : closeParen st steps with
          | ok p =>
            obtain ⟨st', steps'⟩ := p
            exact ih st' steps' t h
          | err e =>
            left
            rw [closeParen_err hcp]
        · rw [if_neg h2]
          by_cases h3 : tok ∈ opNames
          · rw [if_pos h3]
            exact ih _ steps t h
          · rw [if_neg h3]
            cases hlk : values.lookup tok with
            | some b =>
              exact ih _ steps t h
            | none =>
              exfalso
              have : badTokB values tok = true := by
                unfold badTokB
                simp only [Bool.and_eq_true, decide_eq_true_eq]
                exact ⟨⟨⟨h1, h2⟩, h3⟩, Option.isNone_iff_eq_none.mpr hlk⟩
              rw [this] at hbad
              cases hbad

theorem buildRows_ok {expression : List Char} {vars : List Char} {schema : Nat} :
    ∀ (combos : List (List Bool)) (rows : List (List Bool × List Bool)),
      buildRows expression vars schema combos = .ok rows →
        rows.map Prod.fst = combos ∧
          ∀ combo ∈ combos, ∃ r, evaluate_step expression (mkValues vars combo) = .ok r := by
  intro combos
  induction combos with
  | nil =>
    intro rows h
    cases h
    refine ⟨rfl, ?_⟩
    intro c hc
    exact absurd hc (List.not_mem_nil c)
  | cons combo rest ih =>
    intro rows h
    rw [buildRows] at h
    cases hev : evaluate_step expression (mkValues vars combo) with
    | ok p =>
      obtain ⟨v, stepTr⟩ := p
      rw [hev] at h
      cases hbr : buildRows expression vars schema rest with
      | ok rows' =>
        rw [hbr] at h
        cases h
        obtain ⟨hmap, hall⟩ := ih rows' hbr
        refine ⟨by simp [hmap], ?_⟩
        intro c hc
        rcases List.mem_cons.mp hc with hc | hc
        · exact ⟨(v, stepTr), by rw [hc]; exact hev⟩
        · exact hall c hc
      | err e =>
        rw [hbr] at h
        cases h
    | err e =>
      rw [hev] at h
      cases h

theorem generate_ok {expression : List Char} {t : TTable}
    (h : generate_truth_table expression = .ok t) :
    t.varNames = get_variables expression ∧
      t.rows.map Prod.fst = boolProduct (get_variables expression).length ∧
      ∀ combo ∈ boolProduct (get_variables expression).length,
        ∃ r, evaluate_step expression (mkValues (get_variables expression) combo) = .ok r := by
  unfold generate_truth_table at h
  cases hev : evaluate_step expression
      (mkValues (get_variables expression)
        ((boolProduct (get_variables expression).length).headD [])) with
  | ok p =>
    obtain ⟨v0, steps0⟩ := p
    rw [hev] at h
    dsimp only at h
    cases hbr : buildRows expression (get_variables expression) steps0.length
        (boolProduct (get_variables expression).length) with
    | ok rows =>
      rw [hbr] at h
      dsimp only at h
      cases h
      obtain ⟨hmap, hall⟩ := buildRows_ok _ _ hbr
      exact ⟨rfl, hmap, hall⟩
    | err e =>
      rw [hbr] at h
      dsimp only at h
      cases h
  | err e =>
    rw [hev] at h
    dsimp only at h
    cases h

/-- The binary operator tags (the `operations` keys of arity 2). -/
def binOps : List (List Char) :=
  ["AND".data, "OR".data, "IMPLIES".data, "EQUIV".data, "XOR".data]

/-- The Boolean truth function a binary operator tag denotes. -/
def binSem (op : List Char) (a b : Bool) : Bool :=
  if op = "AND".data then a && b
  else if op = "OR".data then a || b
  else if op = "IMPLIES".data then !a || b
  else if op = "EQUIV".data then a == b
  else if op = "XOR".data then a != b
  else false

theorem binOps_facts : ∀ op ∈ binOps,
    op ∈ opNames ∧ op ≠ "(".data ∧ op ≠ ")".data := by decide

theorem applyBin_binOp : ∀ op ∈ binOps, ∀ a b : Bool,
    applyBin op (.pbool a) (.pbool b) = .ok (.pbool (binSem op a b)) := by decide

/-- A fully parenthesized formula over variable tokens and binary operator
tags: the shape of token stream for which the step-schema invariant is
claimed. -/
inductive Form where
  | fvar (v : List Char)
  | fbin (op : List Char) (l r : Form)

/-- The token stream of a formula: `v`, or `( l op r )`. -/
def toksOf : Form → List (List Char)
  | .fvar v => [v]
  | .fbin op l r => "(".data :: (toksOf l ++ (op :: (toksOf r ++ [")".data])))

/-- The display text the evaluator builds for a formula. -/
def textOf : Form → List Char
  | .fvar v => v
  | .fbin op l r => binText (textOf l) op (textOf r)

/-- The Boolean value of a formula under an assignment. -/
def semOf (values : List (List Char × Bool)) : Form → Bool
  | .fvar v => (values.lookup v).getD false
  | .fbin op l r => binSem op (semOf values l) (semOf values r)

/-- The evaluation steps the evaluator records for a formula. -/
def stepsOf (values : List (List Char × Bool)) : Form → List Step
  | .fvar _ => []
  | .fbin op l r =>
    stepsOf values l ++ stepsOf values r ++
      [(binText (textOf l) op (textOf r),
        .pbool (binSem op (semOf values l) (semOf values r)))]

/-- The display texts of the evaluation steps, which do not depend on the
assignment. -/
def stepTexts : Form → List (List Char)
  | .fvar _ => []
  | .fbin op l r => stepTexts l ++ stepTexts r ++ [binText (textOf l) op (textOf r)]

/-- Well-formedness: every operator is a binary tag, and every variable token
is not a parenthesis and not an operator tag. -/
def goodForm : Form → Prop
  | .fvar v => v ≠ "(".data ∧ v ≠ ")".data ∧ v ∉ opNames
  | .fbin op l r => op ∈ binOps ∧ goodForm l ∧ goodForm r

def goodFormDec : ∀ f, Decidable (goodForm f)
  | .fvar v => by
    unfold goodForm
    infer_instance
  | .fbin op l r =>
    have hl := goodFormDec l
    have hr := goodFormDec r
    by
      unfold goodForm
      exact instDecidableAnd

instance (f : Form) : Decidable (goodForm f) := goodFormDec f

/-- The variable tokens of a formula, in occurrence order. -/
def varsOf : Form → List (List Char)
  | .fvar v => [v]
  | .fbin _ l r => varsOf l ++ varsOf r

/-- A complete assignment for a formula: every variable token has a binding. -/
def completeFor (values : List (List Char × Bool)) (f : Form) : Prop :=
  ∀ v ∈ varsOf f, (values.lookup v).isSome = true

instance (values : List (List Char × Bool)) (f : Form) :
    Decidable (completeFor values f) := by
  unfold completeFor
  infer_instance

theorem stepsOf_texts (values : List (List Char × Bool)) :
    ∀ f : Form, (stepsOf values f).map Prod.fst = stepTexts f := by
  intro f
  induction f with
  | fvar v => rfl
  | fbin op l r ihl ihr =>
    show ((stepsOf values l ++ stepsOf values r ++ _).map Prod.fst) = _
    rw [List.map_append, List.map_append, ihl, ihr]
    rfl

theorem runLoop_form (values : List (List Char × Bool)) :
    ∀ f : Form, goodForm f → completeFor values f →
      ∀ (rest : List (List Char)) (st : List Frame) (steps : List Step),
        runLoop values (toksOf f ++ rest) st steps =
          runLoop values rest ((.pbool (semOf values f), textOf f) :: st)
            (steps ++ stepsOf values f) := by
  intro f
  induction f with
  | fvar v =>
    intro hg hc rest st steps
    obtain ⟨h1, h2, h3⟩ := hg
    obtain ⟨b, hb⟩ := Option.isSome_iff_exists.mp (hc v (by simp [varsOf]))
    show runLoop values (v :: rest) st steps = _
    rw [runLoop, if_neg h1, if_neg h2, if_neg h3, hb]
    have hsem : semOf values (.fvar v) = b := by simp [semOf, hb]
    rw [hsem]
    show _ = runLoop values rest ((PyVal.pbool b, v) :: st) (steps ++ [])
    rw [List.append_nil]
  | fbin op l r ihl ihr =>
    intro hg hc rest st steps
    obtain ⟨hop, hgl, hgr⟩ := hg
    have hcl : completeFor values l := fun v hv => hc v (by simp [varsOf, hv])
    have hcr : completeFor values r := fun v hv => hc v (by simp [varsOf, hv])
    obtain ⟨hopn, hne1, hne2⟩ := binOps_facts op hop
    have e1 : toksOf (Form.fbin op l r) ++ rest
        = "(".data :: (toksOf l ++ (op :: (toksOf r ++ (")".data :: rest)))) := by
      simp [toksOf, List.append_assoc]
    rw [e1, runLoop, if_pos rfl]
    rw [ihl hgl hcl (op :: (toksOf r ++ (")".data :: rest))) st steps]
    rw [runLoop, if_neg hne1, if_neg hne2, if_pos hopn]
    rw [ihr hgr hcr (")".data :: rest) _ _]
    rw [runLoop, if_neg (by decide), if_pos rfl]
    have hcp : closeParen
        ((PyVal.pbool (semOf values r), textOf r) ::
          (PyVal.pstr op, op) ::
            (PyVal.pbool (semOf values l), textOf l) :: st)
        (steps ++ stepsOf values l ++ stepsOf values r)
        = .ok ((PyVal.pbool (binSem op (semOf values l) (semOf values r)),
                 binText (textOf l) op (textOf r)) :: st,
               (steps ++ stepsOf values l ++ stepsOf values r) ++
                 [(binText (textOf l) op (textOf r),
                   PyVal.pbool (binSem op (semOf values l) (semOf values r)))]) := by
      show binReduce (PyVal.pbool (semOf values r), textOf r) (PyVal.pstr op, op)
        (PyVal.pbool (semOf values l), textOf l) st
        (steps ++ stepsOf values l ++ stepsOf values r) = _
      simp only [binReduce]
      rw [if_pos hopn, applyBin_binOp op hop (semOf values l) (semOf values r)]
    rw [hcp]
    show runLoop values rest _ _ = runLoop values rest _ _
    have hsteps : (steps ++ stepsOf values l ++ stepsOf values r) ++
        [(binText (textOf l) op (textOf r),
          PyVal.pbool (binSem op (semOf values l) (semOf values r)))]
        = steps ++ stepsOf values (Form.fbin op l r) := by
      show _ = steps ++ (stepsOf values l ++ stepsOf values r ++ _)
      simp [List.append_assoc]
    rw [hsteps]
    rfl

theorem evaluate_form (expression : List Char) (values : List (List Char × Bool))
    (f : Form) (ht : pyTokens expression = toksOf f) (hg : goodForm f)
    (hc : completeFor values f) :
    evaluate_step expression values = .ok (.pbool (semOf values f), stepsOf values f) := by
  unfold evaluate_step
  rw [ht]
  have h1 : runLoop values (toksOf f) [] []
      = .ok ([(.pbool (semOf values f), textOf f)], stepsOf values f) := by
    have h := runLoop_form values f hg hc [] [] []
    rw [List.append_nil] at h
    rw [h]
    rfl
  rw [h1]
  dsimp only
  have h2 : flush [(.pbool (semOf values f), textOf f)] (stepsOf values f)
      = .ok ([(.pbool (semOf values f), textOf f)], stepsOf values f) :=
    flushF_small _ _ (by simp) _
  rw [h2]
  rfl

/-- Number of steps an evaluation produced, when it succeeded. -/
def stepCount : Res (PyVal × List Step) → Option Nat
  | .ok (_, s) => some s.length
  | .err _ => none

/-- C1 counterexample: the expression `A конъюнкция отрицание) B)` has
variables `{A, B}`; under the complete assignment `A=true, B=true` the
evaluator records 2 steps, while under `A=false, B=true` it records only 1
step (the `and` of Python returns the string operand `'NOT'` when `A` is
true, which later triggers the unary reduction) — so the step count and the
display texts are not independent of the assignment, refuting the claim as
stated. -/
theorem C1_schema_counterexample :
    get_variables "A конъюнкция отрицание) B)".data = ['A', 'B'] ∧
    stepCount (evaluate_step "A конъюнкция отрицание) B)".data
      (mkValues ['A', 'B'] [true, true])) = some 2 ∧
    stepCount (evaluate_step "A конъюнкция отрицание) B)".data
      (mkValues ['A', 'B'] [false, true])) = some 1 := by
  refine ⟨by decide, by decide, by decide⟩

/-- C1 (amended): for every expression whose token stream is a fully
parenthesized formula over variable tokens and binary operator tags, and
every two assignments binding all its variable tokens, `evaluate_step`
succeeds on both and produces step lists of the same length with identical
display texts in the same order; only the step values may differ. -/
theorem C1_step_schema_invariant (expression : List Char) (f : Form)
    (v1 v2 : List (List Char × Bool))
    (ht : pyTokens expression = toksOf f) (hg : goodForm f)
    (h1 : completeFor v1 f) (h2 : completeFor v2 f) :
    ∃ r1 r2 s1 s2,
      evaluate_step expression v1 = .ok (r1, s1) ∧
      evaluate_step expression v2 = .ok (r2, s2) ∧
      s1.map Prod.fst = s2.map Prod.fst ∧ s1.length = s2.length := by
  refine ⟨.pbool (semOf v1 f), .pbool (semOf v2 f), stepsOf v1 f, stepsOf v2 f,
    evaluate_form _ _ _ ht hg h1, evaluate_form _ _ _ ht hg h2, ?_, ?_⟩
  · rw [stepsOf_texts, stepsOf_texts]
  · calc (stepsOf v1 f).length
        = ((stepsOf v1 f).map Prod.fst).length := (List.length_map _ _).symm
      _ = (stepTexts f).length := by rw [stepsOf_texts]
      _ = ((stepsOf v2 f).map Prod.fst).length := by rw [stepsOf_texts]
      _ = (stepsOf v2 f).length := List.length_map _ _

theorem C1_step_schema_invariant_witness :
    (pyTokens "(A конъюнкция B)".data
      = toksOf (Form.fbin "AND".data (Form.fvar ['A']) (Form.fvar ['B']))) ∧
    (∃ r1 r2 s1 s2,
      evaluate_step "(A конъюнкция B)".data [(['A'], true), (['B'], true)] = .ok (r1, s1) ∧
      evaluate_step "(A конъюнкция B)".data [(['A'], false), (['B'], true)] = .ok (r2, s2) ∧
      s1.map Prod.fst = s2.map Prod.fst ∧ s1.length = s2.length) :=
  ⟨by decide,
    C1_step_schema_invariant "(A конъюнкция B)".data
      (Form.fbin "AND".data (Form.fvar ['A']) (Form.fvar ['B']))
      [(['A'], true), (['B'], true)] [(['A'], false), (['B'], true)]
      (by decide) (by decide) (by decide) (by decide)⟩

/-- C2: the claim is right and the code is wrong.  Evaluating the localized
`NOT(NOT(A))` raises a `TypeError` for every assignment of `A`: at the first
reduction the stack holds `['NOT', 'NOT', value]`, the `len(stack) >= 3`
branch pops the middle `'NOT'` as a binary operator (it is a key of
`operations`) and calls the unary `negation` with two arguments — while the
expression `A` alone evaluates to the assigned value. -/
theorem C2_double_negation_type_error :
    evaluate_step "отрицание (отрицание A)".data [(['A'], true)] = .err .typeError ∧
    evaluate_step "отрицание (отрицание A)".data [(['A'], false)] = .err .typeError ∧
    evaluate_step "A".data [(['A'], true)] = .ok (.pbool true, []) ∧
    evaluate_step "A".data [(['A'], false)] = .ok (.pbool false, []) := by
  refine ⟨by decide, by decide, by decide, by decide⟩

/-- The second-from-top stack entry is the `'NOT'` tag (the guard of the
unary-reduction case). -/
def sndIsNotTag (st : List Frame) : Prop :=
  match st with
  | _ :: (opv, _) :: _ => opv = PyVal.pstr "NOT".data
  | _ => False

instance (st : List Frame) : Decidable (sndIsNotTag st) :=
  match st with
  | [] => isFalse (fun h => h)
  | [_] => isFalse (fun h => h)
  | _ :: (opv, _) :: _ =>
    inferInstanceAs (Decidable (opv = PyVal.pstr "NOT".data))

/-- C3 counterexample: a CloseParen with 3 frames whose middle entry is a
Boolean (not a binary operator tag, and not the `NOT` tag, so neither
reduction case of the claim applies) pops and silently discards all three
frames instead of leaving the stacks unchanged. -/
theorem C3_frames_lost_counterexample :
    closeParen [(PyVal.pbool true, ['C']), (PyVal.pbool true, ['B']),
        (PyVal.pbool true, ['A'])] [] = .ok ([], []) ∧
    ¬ sndIsNotTag [(PyVal.pbool true, ['C']), (PyVal.pbool true, ['B']),
        (PyVal.pbool true, ['A'])] ∧
    (∀ s : List Char, PyVal.pbool true ≠ PyVal.pstr s) ∧
    ([] : List Frame) ≠ [(PyVal.pbool true, ['C']), (PyVal.pbool true, ['B']),
        (PyVal.pbool true, ['A'])] := by
  refine ⟨by decide, by decide, ?_, by decide⟩
  intro s h
  cases h

/-- C3 (amended): when a CloseParen is processed with fewer than 3 frames and
the second-from-top frame is not the `NOT` tag, no reduction occurs and both
stacks are left unchanged (a silent no-op, not an error). -/
theorem C3_close_paren_noop (st : List Frame) (steps : List Step)
    (h3 : st.length < 3) (hn : ¬ sndIsNotTag st) :
    closeParen st steps = .ok (st, steps) := by
  match st with
  | [] => rfl
  | [f] => rfl
  | [(v, t), (opv, topt)] =>
    have hne : opv ≠ PyVal.pstr "NOT".data := fun he => hn he
    show closeParen [(v, t), (opv, topt)] steps = _
    simp only [closeParen]
    rw [if_neg hne]
  | a :: b :: c :: rest =>
    exfalso
    simp only [List.length_cons] at h3
    omega

theorem C3_close_paren_noop_witness :
    closeParen [(PyVal.pbool true, ['A'])] [] = .ok ([(PyVal.pbool true, ['A'])], []) :=
  C3_close_paren_noop [(PyVal.pbool true, ['A'])] [] (by decide) (by decide)

/-- C4 counterexample: the empty expression produces an empty token stream,
the final `stack[0]` read raises an `IndexError` — an error kind other than
the undefined-variable failure escapes the core. -/
theorem C4_index_error_counterexample :
    evaluate_step [] [] = .err .indexError ∧
    (∀ t : List Char, Err.indexError ≠ Err.undefinedVariable t) := by
  refine ⟨by decide, ?_⟩
  intro t h
  cases h

/-- C4 (amended): every evaluation either returns a result, or fails with the
undefined-variable error — raised only for a token of the stream that is not
a parenthesis, not an operator tag, and not a key of the assignment — or
fails with the `TypeError` from a reduction that pops the `NOT` tag as a
binary operator, or fails with the `IndexError` from an empty final stack;
no further failure kinds exist. -/
theorem C4_error_classification (expression : List Char)
    (values : List (List Char × Bool)) :
    (∃ r, evaluate_step expression values = .ok r) ∨
    (∃ t, evaluate_step expression values = .err (.undefinedVariable t) ∧
      t ∈ pyTokens expression ∧ t ≠ "(".data ∧ t ≠ ")".data ∧ t ∉ opNames ∧
      values.lookup t = none) ∨
    evaluate_step expression values = .err .typeError ∨
    evaluate_step expression values = .err .indexError := by
  cases hev : evaluate_step expression values with
  | ok r => exact Or.inl ⟨r, rfl⟩
  | err e =>
    unfold evaluate_step at hev
    cases hrl : runLoop values (pyTokens expression) [] [] with
    | err e' =>
      rw [hrl] at hev
      cases hev
      rcases runLoop_err values _ _ _ _ hrl with hte | ⟨t, ht, hmem, hh1, hh2, hh3, hh4⟩
      · subst hte
        exact Or.inr (Or.inr (Or.inl rfl))
      · subst ht
        exact Or.inr (Or.inl ⟨t, rfl, hmem, hh1, hh2, hh3, hh4⟩)
    | ok p =>
      obtain ⟨st, steps⟩ := p
      rw [hrl] at hev
      dsimp only at hev
      cases hfl : flush st steps with
      | err e' =>
        rw [hfl] at hev
        cases hev
        have := flushF_err st.length st steps _ hfl
        subst this
        exact Or.inr (Or.inr (Or.inl rfl))
      | ok p2 =>
        obtain ⟨st2, steps2⟩ := p2
        rw [hfl] at hev
        dsimp only at hev
        cases hgl : st2.getLast? with
        | none =>
          rw [hgl] at hev
          cases hev
          exact Or.inr (Or.inr (Or.inr rfl))
        | some fr =>
          obtain ⟨v, txt⟩ := fr
          rw [hgl] at hev
          cases hev

/-- C5 counterexample: for the expression `отрицание (отрицание A) C` with
assignment `{A: true}`, the token `C` is neither a parenthesis, nor an
operator tag, nor an assignment key, yet the evaluation fails with the
`TypeError` raised by the earlier close-paren reduction (the double-negation
slip), not with an undefined-variable error naming `C`; propagated through
the table builder, this aborts the build with that other error. -/
theorem C5_masked_by_type_error_counterexample :
    ['C'] ∈ pyTokens "отрицание (отрицание A) C".data ∧
    badTokB [(['A'], true)] ['C'] = true ∧
    evaluate_step "отрицание (отрицание A) C".data [(['A'], true)] = .err .typeError ∧
    (∀ t : List Char, Err.typeError ≠ Err.undefinedVariable t) := by
  refine ⟨by decide, by decide, by decide, ?_⟩
  intro t h
  cases h

/-- C5 (amended): if the token stream contains a token that is not a
parenthesis, not an operator tag, and not a key of the assignment, evaluation
fails — with an undefined-variable error naming the first such token, unless
an earlier close-paren reduction raises the `TypeError` first; and the table
builder aborts the entire build on the first failing row, producing no
partial table (a built table certifies that every row evaluated
successfully). -/
theorem C5_undefined_variable_reported :
    (∀ (expression : List Char) (values : List (List Char × Bool)) (t : List Char),
      (pyTokens expression).find? (badTokB values) = some t →
        evaluate_step expression values = .err .typeError ∨
        evaluate_step expression values = .err (.undefinedVariable t)) ∧
    (∀ (expression : List Char) (t : TTable),
      generate_truth_table expression = .ok t →
        ∀ combo ∈ boolProduct (get_variables expression).length,
          ∃ r, evaluate_step expression (mkValues (get_variables expression) combo)
            = .ok r) := by
  constructor
  · intro expression values t h
    unfold evaluate_step
    rcases runLoop_badtok values (pyTokens expression) [] [] t h with h1 | h1 <;> rw [h1]
    · exact Or.inl rfl
    · exact Or.inr rfl
  · intro expression t h
    exact (generate_ok h).2.2

theorem C5_undefined_variable_reported_witness :
    ((pyTokens "C".data).find? (badTokB [(['A'], true)]) = some ['C']) ∧
    (evaluate_step "C".data [(['A'], true)] = .err .typeError ∨
      evaluate_step "C".data [(['A'], true)] = .err (.undefinedVariable ['C'])) :=
  ⟨by decide,
    C5_undefined_variable_reported.1 "C".data [(['A'], true)] ['C'] (by decide)⟩

/-- C6: the claim is right and the code is wrong.  The empty expression has
zero variables and variable extraction yields the empty sequence, but the
table build fails: the single evaluation under the empty assignment reads
`stack[0]` of an empty stack and the `IndexError` propagates out of
`generate_truth_table` (the first evaluation happens outside the `try`), so
no one-row table is produced. -/
theorem C6_zero_variables_empty_fails :
    get_variables [] = [] ∧ generate_truth_table [] = .err .indexError := by
  refine ⟨by decide, by decide⟩

/-- C7: whenever `generate_truth_table` succeeds, the table has exactly
`2 ^ n` rows for `n` variables, the assignments of the rows are pairwise in
the fixed lexicographic Cartesian-product order over `{true, false}` (most
significant variable slowest, `true` before `false`), every assignment of
length `n` appears, and no assignment is repeated. -/
theorem C7_row_enumeration (expression : List Char) (t : TTable)
    (h : generate_truth_table expression = .ok t) :
    t.rows.length = 2 ^ (get_variables expression).length ∧
    List.Pairwise (fun a b : List Bool × List Bool => lexBefore a.1 b.1 = true) t.rows ∧
    (∀ bs : List Bool, bs ∈ t.rows.map Prod.fst ↔
      bs.length = (get_variables expression).length) ∧
    (t.rows.map Prod.fst).Nodup := by
  obtain ⟨_, hmap, _⟩ := generate_ok h
  have hlen : t.rows.length = (boolProduct (get_variables expression).length).length := by
    rw [← hmap, List.length_map]
  refine ⟨by rw [hlen, length_boolProduct], ?_, ?_, ?_⟩
  · have hp := pairwise_boolProduct (get_variables expression).length
    rw [← hmap, List.pairwise_map] at hp
    exact hp
  · intro bs
    rw [hmap]
    exact mem_boolProduct _ bs
  · rw [hmap]
    exact nodup_boolProduct _

theorem C7_row_enumeration_witness :
    (generate_truth_table "(A конъюнкция B)".data
      = .ok ⟨['A', 'B'], ["(A AND B)".data],
          [([true, true], [true]), ([true, false], [false]),
           ([false, true], [false]), ([false, false], [false])]⟩) ∧
    ((TTable.mk ['A', 'B'] ["(A AND B)".data]
        [([true, true], [true]), ([true, false], [false]),
         ([false, true], [false]), ([false, false], [false])]).rows.length
      = 2 ^ (get_variables "(A конъюнкция B)".data).length ∧
    List.Pairwise (fun a b : List Bool × List Bool => lexBefore a.1 b.1 = true)
      (TTable.mk ['A', 'B'] ["(A AND B)".data]
        [([true, true], [true]), ([true, false], [false]),
         ([false, true], [false]), ([false, false], [false])]).rows ∧
    (∀ bs : List Bool,
      bs ∈ (TTable.mk ['A', 'B'] ["(A AND B)".data]
        [([true, true], [true]), ([true, false], [false]),
         ([false, true], [false]), ([false, false], [false])]).rows.map Prod.fst ↔
        bs.length = (get_variables "(A конъюнкция B)".data).length) ∧
    ((TTable.mk ['A', 'B'] ["(A AND B)".data]
        [([true, true], [true]), ([true, false], [false]),
         ([false, true], [false]), ([false, false], [false])]).rows.map Prod.fst).Nodup) :=
  ⟨by decide,
    C7_row_enumeration "(A конъюнкция B)".data
      (TTable.mk ['A', 'B'] ["(A AND B)".data]
        [([true, true], [true]), ([true, false], [false]),
         ([false, true], [false]), ([false, false], [false])]) (by decide)⟩

/-- C8: each truth function matches its standard Boolean definition, and for
each binary operator the truth table of a single fully parenthesized
application over two variables is the standard 4-row table. -/
theorem C8_truth_functions :
    (∀ a b : Bool, conjunction (.pbool a) (.pbool b) = .pbool (a && b)) ∧
    (∀ a b : Bool, disjunction (.pbool a) (.pbool b) = .pbool (a || b)) ∧
    (∀ a b : Bool, implication (.pbool a) (.pbool b) = .pbool (!a || b)) ∧
    (∀ a b : Bool, equivalence (.pbool a) (.pbool b) = .pbool (a == b)) ∧
    (∀ a b : Bool, exclusive_or (.pbool a) (.pbool b) = .pbool (a != b)) ∧
    (∀ a : Bool, negation (.pbool a) = .pbool (!a)) ∧
    generate_truth_table "(A конъюнкция B)".data
      = .ok ⟨['A', 'B'], ["(A AND B)".data],
          [([true, true], [true]), ([true, false], [false]),
           ([false, true], [false]), ([false, false], [false])]⟩ ∧
    generate_truth_table "(A дизъюнкция B)".data
      = .ok ⟨['A', 'B'], ["(A OR B)".data],
          [([true, true], [true]), ([true, false], [true]),
           ([false, true], [true]), ([false, false], [false])]⟩ ∧
    generate_truth_table "(A импликация B)".data
      = .ok ⟨['A', 'B'], ["(A IMPLIES B)".data],
          [([true, true], [true]), ([true, false], [false]),
           ([false, true], [true]), ([false, false], [true])]⟩ ∧
    generate_truth_table "(A эквивалентность B)".data
      = .ok ⟨['A', 'B'], ["(A EQUIV B)".data],
          [([true, true], [true]), ([true, false], [false]),
           ([false, true], [false]), ([false, false], [true])]⟩ ∧
    generate_truth_table "(A исключающее или B)".data
      = .ok ⟨['A', 'B'], ["(A XOR B)".data],
          [([true, true], [false]), ([true, false], [true]),
           ([false, true], [true]), ([false, false], [false])]⟩ := by
  refine ⟨by decide, by decide, by decide, by decide, by decide, by decide,
    by decide, by decide, by decide, by decide, by decide⟩

/-- C9: `get_variables` returns a strictly sorted (hence duplicate-free)
sequence containing exactly the ASCII alphabetic characters that remain after
removing the localized operator phrases; in particular the result depends
only on the set of remaining letters, and `"(A конъюнкция A)"` yields exactly
`[A]`. -/
theorem C9_get_variables_sorted_set :
    (∀ expression : List Char,
      List.Pairwise (· < ·) (get_variables expression) ∧
      (get_variables expression).Nodup ∧
      (∀ c : Char, c ∈ get_variables expression ↔
        isPyAlpha c = true ∧ c ∈ stripPhrases expression)) ∧
    get_variables "(A конъюнкция A)".data = ['A'] := by
  constructor
  · intro expression
    refine ⟨pairwise_sortedDedup _, ?_, ?_⟩
    · exact (pairwise_sortedDedup _).imp (fun h => ne_of_lt h)
    · intro c
      show c ∈ sortedDedup ((stripPhrases expression).filter isPyAlpha) ↔ _
      rw [mem_sortedDedup, List.mem_filter]
      exact ⟨fun h => ⟨h.2, h.1⟩, fun h => ⟨h.2, h.1⟩⟩
  · decide
